import Mathlib

/-!
Verification of the invoice-extraction pipeline (src/app.py).

The development shallowly embeds the pure algorithmic content of the
program: the element normalizer inside extract_text_from_pdf, the
classifier wrapper extract_invoice_data, the aggregation expression of
main, and the word-wrap / pagination loop of create_pdf.  Machine reals
(reportlab string widths) are modelled as exact natural-number widths
supplied by an abstract measuring function, so the float expressions
int(len(line) * (available_width / line_width)) and
int(available_width / stringWidth('x')) become exact floored division.
Python strings are modelled as String / List Char; the whitespace
predicate covers the ASCII whitespace characters that str.isspace and
str.strip recognise.
-/

namespace Invoice

/-- ASCII whitespace, the fragment of Python str.isspace used here. -/
def pyIsSpace (c : Char) : Bool :=
  c == ' ' || c == '\t' || c == '\n' || c == '\r' || c == '\x0b' || c == '\x0c'

/-- Python str.lstrip restricted to ASCII whitespace. -/
def pyLStrip (l : List Char) : List Char := l.dropWhile pyIsSpace

/-- Python str.strip on the character list: whitespace removed from both ends. -/
def pyStripL (l : List Char) : List Char :=
  ((l.dropWhile pyIsSpace).reverse.dropWhile pyIsSpace).reverse

/-- Python str.strip on strings. -/
def pyStrip (s : String) : String := String.mk (pyStripL s.data)

/-- Python sep.join(list): empty for the empty list, otherwise the entries
with sep between consecutive entries. -/
def joinWith (sep : String) : List String → String
  | [] => ""
  | [x] => x
  | x :: y :: xs => x ++ sep ++ joinWith sep (y :: xs)

/-- The tagged document elements produced by the external parser: Text and
Title (plain text and headings), ListItem, Table carrying its rows of cell
strings, and a constructor for any element type outside this closed set
(dropped by the normalizer). -/
inductive DocumentElement where
  | text (s : String)
  | title (s : String)
  | listItem (s : String)
  | table (rows : List (List String))
  | other
deriving DecidableEq

/-- The literal list-item marker of src/app.py line 39: the source file
contains the three characters U+00E2 U+20AC U+00A2 (a mojibake rendering of
a bullet) followed by a space. -/
def bulletMarker : String := "â€¢ "

/-- One iteration of the element loop of extract_text_from_pdf
(src/app.py lines 31-39): Text/Title append str(element); Table appends the
rows joined by a pipe separator and newlines, as a single entry; ListItem
appends the marker plus the text; anything else appends nothing. -/
def elemEntry : DocumentElement → Option String
  | .text s => some s
  | .title s => some s
  | .table rows => some (joinWith "\n" (rows.map (joinWith " | ")))
  | .listItem s => some (bulletMarker ++ s)
  | .other => none

/-- The pure core of extract_text_from_pdf (src/app.py lines 30-41): the
per-element entries joined with newlines.  The spec calls this normalize. -/
def normalize (es : List DocumentElement) : String :=
  joinWith "\n" (es.filterMap elemEntry)

/-- extract_text_from_pdf (src/app.py lines 13-47) with the external parser
abstracted: a parse failure is caught and the function returns the empty
string; a successful parse yields the normalized element text. -/
def extract_text_from_pdf (parse : String → Except String (List DocumentElement))
    (file : String) : String :=
  match parse file with
  | .error _ => ""
  | .ok es => normalize es

/-- The sentinel the classification collaborator returns for non-invoices. -/
def sentinel : String := "NO_INVOICE_FOUND"

/-- extract_invoice_data (src/app.py lines 49-81) with the language-model
call abstracted as a function that either fails (exception path, caught:
the result is none) or returns a response string; a response that strips to
the sentinel yields none, anything else is returned unchanged. -/
def extract_invoice_data (llm : String → Except String String)
    (text : String) : Option String :=
  match llm text with
  | .error _ => none
  | .ok response => if pyStrip response = sentinel then none else some response

/-- The per-file header of main (src/app.py line 177). -/
def invoiceHeader (filename : String) : String :=
  "--- Invoice from " ++ filename ++ " ---"

/-- The combining expression of main (src/app.py line 187), applied to the
ordered per-file results: kept entries are the results that are a nonempty
string (Python truthiness of invoice_data), each prefixed with its header
line; the combined text is two newlines, then fifty equals signs, then the
kept entries joined by blank lines.  Note that in the source the fifty-sign
run is concatenated once, in front of the first entry: the join separator
itself is only a blank line. -/
def aggregate (results : List (String × Option String)) : String :=
  "\n\n" ++ String.mk (List.replicate 50 '=') ++
    joinWith "\n\n" (results.filterMap fun r =>
      match r.2 with
      | some d => if d = "" then none else some (invoiceHeader r.1 ++ "\n" ++ d)
      | none => none)

/-- What one file contributes to extracted_invoices in the loop of main
(src/app.py lines 167-179): nothing when the extracted text is empty (which
is also the parse-failure outcome) or the classifier result is not a
nonempty string, one header-plus-data entry otherwise. -/
def fileContribution (parse : String → Except String (List DocumentElement))
    (llm : String → Except String String) (file : String × String) : List String :=
  let text := extract_text_from_pdf parse file.2
  if text = "" then []
  else
    match extract_invoice_data llm text with
    | none => []
    | some d => if d = "" then [] else [invoiceHeader file.1 ++ "\n" ++ d]

/-- The accumulation loop of main (src/app.py lines 162-179) over the
uploaded files (name, contents), in upload order. -/
def processFiles (parse : String → Except String (List DocumentElement))
    (llm : String → Except String String)
    (files : List (String × String)) : List String :=
  files.foldl (fun acc file => acc ++ fileContribution parse llm file) []

/-- The fixed page configuration of create_pdf generalised to the spec's
PageGeometry, with the data-model invariant that the usable area is
positive (margin below half of each page dimension). -/
structure Geometry where
  pageWidth : ℕ
  pageHeight : ℕ
  margin : ℕ
  lineHeight : ℕ
  hW : 2 * margin < pageWidth
  hH : 2 * margin < pageHeight

/-- The usable width of a page, pageWidth - 2 * margin (available_width in
src/app.py line 110). -/
def Geometry.avail (g : Geometry) : ℕ := g.pageWidth - 2 * g.margin

/-- One drawString call: 0-based page index, position, text segment.  The
vertical cursor is an integer because the source decrements it below the
margin before the page check. -/
structure DrawInstr where
  page : ℕ
  x : ℕ
  y : ℤ
  text : List Char
deriving DecidableEq

/-- The page-advance check of create_pdf (src/app.py lines 101-104 and
128-131): when the cursor has passed the bottom margin, reset it to the top
of a fresh page and move to the next page index. -/
def pageAdvance (g : Geometry) (y : ℤ) (page : ℕ) : ℤ × ℕ :=
  if y < (g.margin : ℤ) then ((g.pageHeight : ℤ) - g.margin, page + 1) else (y, page)

/-- The interpolated tentative break index of src/app.py line 117,
int(len(line) * (available_width / line_width)), in exact arithmetic. -/
def tentativeBreak (g : Geometry) (meas : List Char → ℕ) (line : List Char) : ℕ :=
  line.length * g.avail / meas line

/-- The backward walk of src/app.py lines 118-119: from the start index,
step down while the index is positive and the character there is not
whitespace. -/
def walkBack (line : List Char) : ℕ → ℕ
  | 0 => 0
  | j + 1 => if pyIsSpace (line.getD (j + 1) ' ') then j + 1 else walkBack line j

/-- The break point of src/app.py lines 117-122: the backward walk from the
tentative index; when it reaches 0, the fallback raw character budget
int(available_width / stringWidth('x')). -/
def breakPoint (g : Geometry) (meas : List Char → ℕ) (line : List Char) : ℕ :=
  if walkBack line (tentativeBreak g meas line) = 0 then g.avail / meas ['x']
  else walkBack line (tentativeBreak g meas line)

/-- The inner wrapping loop of create_pdf (src/app.py lines 107-131), with
explicit fuel standing for the number of remaining iterations: the Python
while loop diverges when an iteration makes no progress (break point 0 and
no leading whitespace to strip), which here surfaces as none once the fuel
is exhausted.  A fitting line is drawn whole at the current cursor;
an overlong line is split at the break point, its prefix drawn, the
remainder left-stripped, and the cursor dropped one line height with the
page-advance check applied before the next iteration. -/
def wrapLineFuel (g : Geometry) (meas : List Char → ℕ) :
    ℕ → List Char → ℤ → ℕ → Option (List DrawInstr × ℤ × ℕ)
  | 0, _, _, _ => none
  | _ + 1, [], y, page => some ([], y, page)
  | fuel + 1, c :: cs, y, page =>
    if meas (c :: cs) ≤ g.avail then
      some ([⟨page, g.margin, y, c :: cs⟩], y, page)
    else
      let bp := breakPoint g meas (c :: cs)
      let rest := pyLStrip ((c :: cs).drop bp)
      let yp := pageAdvance g (y - g.lineHeight) page
      match wrapLineFuel g meas fuel rest yp.1 yp.2 with
      | none => none
      | some r => some (⟨page, g.margin, y, (c :: cs).take bp⟩ :: r.1, r.2)

/-- The wrapping loop with enough fuel for every terminating run: a
terminating execution shortens the line at every iteration, so it makes at
most length-plus-one iterations. -/
def wrapLine (g : Geometry) (meas : List Char → ℕ)
    (line : List Char) (y : ℤ) (page : ℕ) : Option (List DrawInstr × ℤ × ℕ) :=
  wrapLineFuel g meas (line.length + 1) line y page

/-- Python text.split of a character list at newline characters: splitting
the empty text yields one empty line. -/
def splitLines : List Char → List (List Char)
  | [] => [[]]
  | c :: cs =>
    if c = '\n' then [] :: splitLines cs
    else
      match splitLines cs with
      | [] => [[c]]
      | l :: ls => (c :: l) :: ls

/-- The outer loop of create_pdf (src/app.py lines 99-133): per input line,
the page-advance check, the wrapping loop, and the final one-line-height
cursor drop that every line performs. -/
def layoutLines (g : Geometry) (meas : List Char → ℕ) :
    List (List Char) → ℤ → ℕ → Option (List DrawInstr × ℤ × ℕ)
  | [], y, page => some ([], y, page)
  | line :: rest, y, page =>
    let yp := pageAdvance g y page
    match wrapLine g meas line yp.1 yp.2 with
    | none => none
    | some r =>
      match layoutLines g meas rest (r.2.1 - g.lineHeight) r.2.2 with
      | none => none
      | some r2 => some (r.1 ++ r2.1, r2.2)

/-- The layout pass of create_pdf over a whole text: the lines of the text,
starting at the top margin of page 0.  none models the diverging runs of
the source loop. -/
def layout (g : Geometry) (meas : List Char → ℕ) (text : String) :
    Option (List DrawInstr) :=
  (layoutLines g meas (splitLines text.data) ((g.pageHeight : ℤ) - g.margin) 0).map
    Prod.fst

/-- The concrete geometry of create_pdf: US letter (612 by 792 points),
one-inch margin (72 points), 14-point line height. -/
def letterGeometry : Geometry :=
  ⟨612, 792, 72, 14, by decide, by decide⟩

/-- create_pdf (src/app.py lines 83-137) as the layout pass at the fixed
letter geometry, with the font metrics abstracted by meas. -/
def create_pdf (meas : List Char → ℕ) (text : String) : Option (List DrawInstr) :=
  layout letterGeometry meas text

/-! ## Helper lemmas on joining and stripping -/

theorem joinWith_cons (sep x : String) (l : List String) (h : l ≠ []) :
    joinWith sep (x :: l) = x ++ sep ++ joinWith sep l := by
  cases l with
  | nil => exact absurd rfl h
  | cons y ys => rfl

theorem joinWith_append (sep : String) (a b : List String)
    (ha : a ≠ []) (hb : b ≠ []) :
    joinWith sep (a ++ b) = joinWith sep a ++ sep ++ joinWith sep b := by
  induction a with
  | nil => exact absurd rfl ha
  | cons x xs ih =>
    cases xs with
    | nil =>
      cases b with
      | nil => exact absurd rfl hb
      | cons y ys => rfl
    | cons z zs =>
      have hne : z :: zs ≠ [] := by simp
      have step : (z :: zs) ++ b ≠ [] := by simp
      calc joinWith sep ((x :: z :: zs) ++ b)
          = x ++ sep ++ joinWith sep ((z :: zs) ++ b) := by
            rw [List.cons_append, joinWith_cons _ _ _ step]
        _ = x ++ sep ++ (joinWith sep (z :: zs) ++ sep ++ joinWith sep b) := by
            rw [ih hne]
        _ = joinWith sep (x :: z :: zs) ++ sep ++ joinWith sep b := by
            rw [joinWith_cons _ _ _ hne]
            simp only [String.append_assoc]

theorem dropWhile_append_of_forall {p : Char → Bool} {a : List Char}
    (b : List Char) (h : ∀ c ∈ a, p c = true) :
    (a ++ b).dropWhile p = b.dropWhile p := by
  induction a with
  | nil => rfl
  | cons x xs ih =>
    have hx : p x = true := h x (by simp)
    rw [List.cons_append, List.dropWhile_cons, if_pos hx]
    exact ih fun c hc => h c (by simp [hc])

theorem dropWhile_cons_of_neg {p : Char → Bool} {c : Char} (l : List Char)
    (h : ¬ p c = true) : (c :: l).dropWhile p = c :: l := by
  rw [List.dropWhile_cons, if_neg h]

/-- Decomposition of str.strip: every character list is its leading
whitespace, its strip, and its trailing whitespace, in that order. -/
theorem pyStripL_decomposition (l : List Char) :
    l = l.takeWhile pyIsSpace ++ pyStripL l ++
      ((l.dropWhile pyIsSpace).reverse.takeWhile pyIsSpace).reverse := by
  have h1 : l.takeWhile pyIsSpace ++ l.dropWhile pyIsSpace = l :=
    List.takeWhile_append_dropWhile ..
  have h2 : (l.dropWhile pyIsSpace).reverse.takeWhile pyIsSpace ++
      (l.dropWhile pyIsSpace).reverse.dropWhile pyIsSpace =
      (l.dropWhile pyIsSpace).reverse :=
    List.takeWhile_append_dropWhile ..
  have h3 : l.dropWhile pyIsSpace =
      pyStripL l ++ ((l.dropWhile pyIsSpace).reverse.takeWhile pyIsSpace).reverse := by
    have := congrArg List.reverse h2
    rw [List.reverse_append, List.reverse_reverse] at this
    exact this.symm
  calc l = l.takeWhile pyIsSpace ++ l.dropWhile pyIsSpace := h1.symm
    _ = l.takeWhile pyIsSpace ++
        (pyStripL l ++ ((l.dropWhile pyIsSpace).reverse.takeWhile pyIsSpace).reverse) := by
        rw [← h3]
    _ = _ := by rw [List.append_assoc]

/-- Stripping whitespace from around a block whose first and last characters
are not whitespace returns exactly that block. -/
theorem pyStripL_of_wrapped (a mid b : List Char) (c d : Char)
    (ha : ∀ x ∈ a, pyIsSpace x = true) (hb : ∀ x ∈ b, pyIsSpace x = true)
    (hc : ¬ pyIsSpace c = true) (hd : ¬ pyIsSpace d = true) :
    pyStripL (a ++ (c :: (mid ++ [d])) ++ b) = c :: (mid ++ [d]) := by
  unfold pyStripL
  rw [List.append_assoc, dropWhile_append_of_forall _ ha, List.cons_append,
    dropWhile_cons_of_neg _ hc]
  have hre : (c :: (mid ++ [d] ++ b)).reverse =
      b.reverse ++ (d :: (c :: mid).reverse) := by
    have h0 : c :: (mid ++ [d] ++ b) = ((c :: mid) ++ [d]) ++ b := by
      simp [List.append_assoc]
    rw [h0, List.reverse_append, List.reverse_append]
    simp
  rw [hre, dropWhile_append_of_forall _
      (fun x hx => hb x (List.mem_reverse.mp hx)),
    dropWhile_cons_of_neg _ hd]
  rw [List.reverse_cons, List.reverse_reverse]
  simp

/-! ## C1, the aggregator -/

/-- C1: evaluating the combining expression of main at the spec's example
results.  The fifty-sign separator appears exactly once, concatenated
directly in front of the first header; between the two kept results there
is only a blank line, so the output differs from the intended join of the
entries with a separator line of fifty equals signs between them. -/
theorem aggregate_separator_eval :
    aggregate [("a.pdf", some "X"), ("b.pdf", none), ("c.pdf", some "Y")] =
      "\n\n" ++ String.mk (List.replicate 50 '=') ++
        ("--- Invoice from a.pdf ---\nX" ++ "\n\n" ++
          "--- Invoice from c.pdf ---\nY") ∧
    aggregate [("a.pdf", some "X"), ("b.pdf", none), ("c.pdf", some "Y")] ≠
      joinWith ("\n\n" ++ String.mk (List.replicate 50 '=') ++ "\n\n")
        ["--- Invoice from a.pdf ---\nX", "--- Invoice from c.pdf ---\nY"] := by
  constructor
  · decide
  · decide

/-! ## C2, the classifier wrapper -/

/-- C2 (counterexample): a response that is the sentinel surrounded by
whitespace is not literally the sentinel, yet the wrapper returns none,
because the source strips the response before comparing. -/
theorem extract_invoice_data_strip_cex :
    extract_invoice_data (fun _ => Except.ok " NO_INVOICE_FOUND ") "text" = none ∧
      (" NO_INVOICE_FOUND " : String) ≠ sentinel := by
  constructor
  · decide
  · decide

/-- C2 (amended): the wrapper returns none exactly when the successful
response is the sentinel possibly surrounded by whitespace (that is, when
the stripped response is the sentinel); every other response is returned
unchanged as some. -/
theorem extract_invoice_data_sentinel_iff :
    ∀ text response : String,
      (extract_invoice_data (fun _ => Except.ok response) text = none ↔
        ∃ a b : List Char, response.data = a ++ sentinel.data ++ b ∧
          (∀ c ∈ a, pyIsSpace c = true) ∧ (∀ c ∈ b, pyIsSpace c = true)) ∧
      (extract_invoice_data (fun _ => Except.ok response) text = none ∨
        extract_invoice_data (fun _ => Except.ok response) text = some response) := by
  intro text response
  have hnone : extract_invoice_data (fun _ => Except.ok response) text = none ↔
      pyStripL response.data = sentinel.data := by
    unfold extract_invoice_data
    constructor
    · intro h
      by_cases hs : pyStrip response = sentinel
      · exact congrArg String.data hs
      · simp [hs] at h
    · intro h
      have : pyStrip response = sentinel := congrArg String.mk h
      simp [this]
  refine ⟨hnone.trans ?_, ?_⟩
  · constructor
    · intro h
      refine ⟨response.data.takeWhile pyIsSpace,
        ((response.data.dropWhile pyIsSpace).reverse.takeWhile pyIsSpace).reverse,
        ?_, ?_, ?_⟩
      · have := pyStripL_decomposition response.data
        rw [h] at this
        exact this
      · exact fun c hc => List.mem_takeWhile_imp hc
      · intro c hc
        rw [List.mem_reverse] at hc
        exact List.mem_takeWhile_imp hc
    · rintro ⟨a, b, hab, ha, hb⟩
      rw [hab]
      have hs : sentinel.data = 'N' :: ("O_INVOICE_FOUN".data ++ ['D']) := by decide
      rw [hs]
      exact pyStripL_of_wrapped a "O_INVOICE_FOUN".data b 'N' 'D' ha hb
        (by decide) (by decide)
  · unfold extract_invoice_data
    by_cases hs : pyStrip response = sentinel <;> simp [hs]

/-! ## C3, the element normalizer -/

/-- The lines an element contributes to the normalized output, one string
per output line: one unchanged line for Text and Title, one marked line per
ListItem, one joined line per table row, nothing for unrecognized
elements. -/
def elemLines : DocumentElement → List String
  | .text s => [s]
  | .title s => [s]
  | .listItem s => [bulletMarker ++ s]
  | .table rows => rows.map (joinWith " | ")
  | .other => []

/-- Whether every table element of the list has at least one row. -/
def tablesNonempty (es : List DocumentElement) : Bool :=
  es.all fun e =>
    match e with
    | .table rows => !rows.isEmpty
    | _ => true

/-- The extra output lines a table contributes beyond its one element slot. -/
def tableExtra : DocumentElement → ℕ
  | .table rows => rows.length - 1
  | _ => 0

theorem tablesNonempty_rest {e : DocumentElement} {rest : List DocumentElement}
    (h : tablesNonempty (e :: rest) = true) : tablesNonempty rest = true := by
  unfold tablesNonempty at h ⊢
  rw [List.all_cons, Bool.and_eq_true] at h
  exact h.2

theorem tablesNonempty_head {rows : List (List String)}
    {rest : List DocumentElement}
    (h : tablesNonempty (DocumentElement.table rows :: rest) = true) :
    rows ≠ [] := by
  unfold tablesNonempty at h
  rw [List.all_cons, Bool.and_eq_true] at h
  simpa using h.1

theorem normalize_joins (es : List DocumentElement) (h : tablesNonempty es = true) :
    joinWith "\n" (es.filterMap elemEntry) = joinWith "\n" (es.flatMap elemLines) ∧
      (es.filterMap elemEntry = [] ↔ es.flatMap elemLines = []) := by
  induction es with
  | nil => exact ⟨rfl, by simp⟩
  | cons e rest ih =>
    obtain ⟨hj, hiff⟩ := ih (tablesNonempty_rest h)
    have hsingle : ∀ t : String, elemEntry e = some t → elemLines e = [t] →
        joinWith "\n" ((e :: rest).filterMap elemEntry) =
          joinWith "\n" ((e :: rest).flatMap elemLines) ∧
        ((e :: rest).filterMap elemEntry = [] ↔ (e :: rest).flatMap elemLines = []) := by
      intro t hent hlin
      rw [List.filterMap_cons_some hent, List.flatMap_cons, hlin]
      constructor
      · by_cases hr : rest.filterMap elemEntry = []
        · rw [hr, hiff.mp hr]
          simp
        · have hr2 : rest.flatMap elemLines ≠ [] := fun hx => hr (hiff.mpr hx)
          rw [joinWith_cons _ _ _ hr, List.singleton_append,
            joinWith_cons _ _ _ hr2, hj]
      · simp
    cases e with
    | text s => exact hsingle s rfl rfl
    | title s => exact hsingle s rfl rfl
    | listItem s => exact hsingle (bulletMarker ++ s) rfl rfl
    | other =>
      rw [List.filterMap_cons_none rfl, List.flatMap_cons]
      exact ⟨hj, hiff⟩
    | table rows =>
      cases rows with
      | nil => exact absurd rfl (tablesNonempty_head h)
      | cons r rs =>
        have hent : elemEntry (DocumentElement.table (r :: rs)) =
            some (joinWith "\n" ((r :: rs).map (joinWith " | "))) := rfl
        have hlin : elemLines (DocumentElement.table (r :: rs)) =
            (r :: rs).map (joinWith " | ") := rfl
        rw [List.filterMap_cons_some hent, List.flatMap_cons, hlin]
        have hL : (r :: rs).map (joinWith " | ") ≠ [] := by simp
        constructor
        · by_cases hr : rest.filterMap elemEntry = []
          · rw [hr, hiff.mp hr, List.append_nil]
            rfl
          · have hr2 : rest.flatMap elemLines ≠ [] := fun hx => hr (hiff.mpr hx)
            rw [joinWith_cons _ _ _ hr, joinWith_append _ _ _ hL hr2, hj]
        · constructor
          · intro hx
            exact absurd hx (by simp)
          · intro hx
            exact absurd hx (by simp [hL])

theorem flatMap_elemLines_length (es : List DocumentElement)
    (h : tablesNonempty es = true) :
    (es.flatMap elemLines).length =
      (es.filterMap elemEntry).length + (es.map tableExtra).sum := by
  induction es with
  | nil => rfl
  | cons e rest ih =>
    have ihr := ih (tablesNonempty_rest h)
    have hsingle : ∀ t : String, elemEntry e = some t → elemLines e = [t] →
        tableExtra e = 0 →
        ((e :: rest).flatMap elemLines).length =
          ((e :: rest).filterMap elemEntry).length + ((e :: rest).map tableExtra).sum := by
      intro t hent hlin hx
      rw [List.filterMap_cons_some hent, List.flatMap_cons, hlin,
        List.map_cons, List.sum_cons, hx]
      simp only [List.singleton_append, List.length_cons]
      omega
    cases e with
    | text s => exact hsingle s rfl rfl rfl
    | title s => exact hsingle s rfl rfl rfl
    | listItem s => exact hsingle (bulletMarker ++ s) rfl rfl rfl
    | other =>
      rw [List.filterMap_cons_none rfl, List.flatMap_cons, List.map_cons,
        List.sum_cons]
      simpa [elemLines, tableExtra] using ihr
    | table rows =>
      cases rows with
      | nil => exact absurd rfl (tablesNonempty_head h)
      | cons r rs =>
        have hent : elemEntry (DocumentElement.table (r :: rs)) =
            some (joinWith "\n" ((r :: rs).map (joinWith " | "))) := rfl
        rw [List.filterMap_cons_some hent, List.flatMap_cons]
        have hlin : elemLines (DocumentElement.table (r :: rs)) =
            (r :: rs).map (joinWith " | ") := rfl
        rw [hlin]
        have hx : tableExtra (DocumentElement.table (r :: rs)) = rs.length := rfl
        simp only [List.map_cons, List.sum_cons, List.length_append,
          List.length_map, List.length_cons, hx]
        rw [ihr]
        omega

/-- C3 (counterexample): at the element list with one ListItem and one
zero-row Table, the normalizer emits the marker actually present in the
source (the mojibake sequence U+00E2 U+20AC U+00A2 and a space, not a
bullet) and the empty table contributes one empty trailing line instead of
zero lines, so the output is not the single claimed line. -/
theorem normalize_listItem_table_cex :
    normalize [DocumentElement.listItem "b", DocumentElement.table []] =
      "â€¢ b\n" ∧
      ("â€¢ b\n" : String) ≠ "• b" := by
  constructor
  · decide
  · decide

/-- C3 (amended): for element lists whose tables all have at least one row,
the normalized output is exactly the per-element lines, in element order,
joined by newlines: one unchanged line per Text or Title, one line
(source marker plus text) per ListItem, one pipe-joined line per table row,
nothing for unrecognized elements; the number of emitted lines is the
number of recognized elements plus, for each table, its row count minus
one. -/
theorem normalize_lines_spec (es : List DocumentElement)
    (h : tablesNonempty es = true) :
    normalize es = joinWith "\n" (es.flatMap elemLines) ∧
      (es.flatMap elemLines).length =
        (es.filterMap elemEntry).length + (es.map tableExtra).sum := by
  exact ⟨(normalize_joins es h).1, flatMap_elemLines_length es h⟩

/-- C3 witness: the amended statement evaluated at a concrete element list
with a heading, a list item, a two-row table and an unrecognized element. -/
theorem normalize_lines_spec_witness :
    normalize [DocumentElement.title "T", DocumentElement.listItem "i",
        DocumentElement.table [["a", "b"], ["c"]], DocumentElement.other] =
      joinWith "\n" (List.flatMap
        [DocumentElement.title "T", DocumentElement.listItem "i",
          DocumentElement.table [["a", "b"], ["c"]], DocumentElement.other] elemLines) ∧
      (List.flatMap [DocumentElement.title "T", DocumentElement.listItem "i",
          DocumentElement.table [["a", "b"], ["c"]], DocumentElement.other] elemLines).length =
        (List.filterMap elemEntry
          [DocumentElement.title "T", DocumentElement.listItem "i",
            DocumentElement.table [["a", "b"], ["c"]], DocumentElement.other]).length +
        (List.map tableExtra [DocumentElement.title "T", DocumentElement.listItem "i",
            DocumentElement.table [["a", "b"], ["c"]], DocumentElement.other]).sum :=
  normalize_lines_spec _ (by decide)

/-! ## C9, per-file error isolation -/

theorem foldl_append_eq_flatMap {α β : Type} (f : α → List β) :
    ∀ (l : List α) (init : List β),
      l.foldl (fun acc x => acc ++ f x) init = init ++ l.flatMap f := by
  intro l
  induction l with
  | nil => intro init; simp
  | cons x xs ih =>
    intro init
    rw [List.foldl_cons, ih, List.flatMap_cons, List.append_assoc]

/-- C9: the batch loop of main is the concatenation of independent per-file
contributions: a parse failure (empty extracted text) or a classification
failure (none) on one file leaves that file's contribution empty and the
contributions of every other file, before and after it, unchanged; the
loop never aborts. -/
theorem processFiles_isolation :
    (∀ parse llm files, processFiles parse llm files =
      files.flatMap (fileContribution parse llm)) ∧
    (∀ parse llm pre file post,
      processFiles parse llm (pre ++ file :: post) =
        processFiles parse llm pre ++ fileContribution parse llm file ++
          processFiles parse llm post) := by
  have hmain : ∀ parse llm files, processFiles parse llm files =
      files.flatMap (fileContribution parse llm) := by
    intro parse llm files
    unfold processFiles
    rw [foldl_append_eq_flatMap, List.nil_append]
  refine ⟨hmain, ?_⟩
  intro parse llm pre file post
  rw [hmain, hmain, hmain, List.flatMap_append, List.flatMap_cons,
    List.append_assoc]

/-! ## C4, the wrap break point -/

theorem walkBack_le (line : List Char) (t : ℕ) : walkBack line t ≤ t := by
  induction t with
  | zero => exact Nat.le_refl 0
  | succ n ih =>
    unfold walkBack
    split
    · exact Nat.le_refl _
    · exact Nat.le_trans ih (Nat.le_succ n)

theorem walkBack_spec (line : List Char) (t : ℕ) :
    walkBack line t = 0 ∨ pyIsSpace (line.getD (walkBack line t) ' ') = true := by
  induction t with
  | zero => exact Or.inl rfl
  | succ n ih =>
    unfold walkBack
    split
    · next h => exact Or.inr h
    · exact ih

theorem walkBack_maximal (line : List Char) (t : ℕ) :
    ∀ j, walkBack line t < j → j ≤ t → ¬ pyIsSpace (line.getD j ' ') = true := by
  induction t with
  | zero =>
    intro j hj1 hj2
    omega
  | succ n ih =>
    intro j hj1 hj2
    unfold walkBack at hj1
    by_cases h : pyIsSpace (line.getD (n + 1) ' ') = true
    · rw [if_pos h] at hj1
      omega
    · rw [if_neg h] at hj1
      rcases Nat.lt_or_ge j (n + 1) with hlt | hge
      · exact ih j hj1 (by omega)
      · have : j = n + 1 := by omega
        rw [this]
        exact h

/-- C4: for an overlong line, the tentative break index lies inside the
line, and the chosen break point is the whitespace position nearest below
(or at) the tentative index when a positive whitespace position exists at
or below it; only when no positive position at or below the tentative index
holds whitespace does the source fall back to the raw character budget,
usable width divided by the width of one reference character. -/
theorem breakPoint_spec (g : Geometry) (meas : List Char → ℕ) (line : List Char)
    (hne : line ≠ []) (hover : g.avail < meas line) :
    tentativeBreak g meas line < line.length ∧
    ((∃ j, 1 ≤ j ∧ j ≤ tentativeBreak g meas line ∧
        pyIsSpace (line.getD j ' ') = true) →
      1 ≤ breakPoint g meas line ∧
      breakPoint g meas line ≤ tentativeBreak g meas line ∧
      pyIsSpace (line.getD (breakPoint g meas line) ' ') = true ∧
      ∀ j, breakPoint g meas line < j → j ≤ tentativeBreak g meas line →
        ¬ pyIsSpace (line.getD j ' ') = true) ∧
    ((∀ j, 1 ≤ j → j ≤ tentativeBreak g meas line →
        ¬ pyIsSpace (line.getD j ' ') = true) →
      breakPoint g meas line = g.avail / meas ['x']) := by
  refine ⟨?_, ?_, ?_⟩
  · have hlen : 0 < line.length := List.length_pos.mpr hne
    have hm : 0 < meas line := by omega
    unfold tentativeBreak
    rw [Nat.div_lt_iff_lt_mul hm]
    exact (Nat.mul_lt_mul_left hlen).mpr hover
  · rintro ⟨j, hj1, hjt, hws⟩
    have hwb1 : 1 ≤ walkBack line (tentativeBreak g meas line) := by
      by_contra hz
      have hz0 : walkBack line (tentativeBreak g meas line) = 0 := by omega
      exact walkBack_maximal line (tentativeBreak g meas line) j
        (by omega) hjt hws
    have hbp : breakPoint g meas line = walkBack line (tentativeBreak g meas line) := by
      unfold breakPoint
      rw [if_neg (by omega)]
    rw [hbp]
    refine ⟨hwb1, walkBack_le line (tentativeBreak g meas line), ?_,
      walkBack_maximal line (tentativeBreak g meas line)⟩
    rcases walkBack_spec line (tentativeBreak g meas line) with h0 | hws2
    · omega
    · exact hws2
  · intro hnone
    have hz : walkBack line (tentativeBreak g meas line) = 0 := by
      by_contra hnz
      rcases walkBack_spec line (tentativeBreak g meas line) with h0 | hws2
      · exact hnz h0
      · exact hnone (walkBack line (tentativeBreak g meas line))
          (by omega) (walkBack_le ..) hws2
    unfold breakPoint
    rw [if_pos hz]

/-- A small concrete geometry for witnesses: 120 by 300 points, margin 10,
line height 14, so the usable width is 100. -/
def demoGeometry : Geometry :=
  ⟨120, 300, 10, 14, by decide, by decide⟩

/-- A monospace width measure of ten units per character. -/
def demoMeasure (l : List Char) : ℕ := 10 * l.length

/-- C4 witness: at the line "hello world foo" with the monospace measure on
the demo geometry, the tentative index is 10 and the chosen break point is
the space at index 5. -/
theorem breakPoint_spec_witness :
    1 ≤ breakPoint demoGeometry demoMeasure "hello world foo".data ∧
    breakPoint demoGeometry demoMeasure "hello world foo".data ≤
      tentativeBreak demoGeometry demoMeasure "hello world foo".data ∧
    pyIsSpace ("hello world foo".data.getD
      (breakPoint demoGeometry demoMeasure "hello world foo".data) ' ') = true ∧
    ∀ j, breakPoint demoGeometry demoMeasure "hello world foo".data < j →
      j ≤ tentativeBreak demoGeometry demoMeasure "hello world foo".data →
      ¬ pyIsSpace ("hello world foo".data.getD j ' ') = true :=
  (breakPoint_spec demoGeometry demoMeasure "hello world foo".data
    (by decide) (by decide)).2.1 ⟨5, by decide, by decide, by decide⟩

/-! ## C10, termination of the wrapping loop -/

theorem breakPoint_pos (g : Geometry) (meas : List Char → ℕ) (line : List Char)
    (hx1 : 0 < meas ['x']) (hx2 : meas ['x'] ≤ g.avail) :
    1 ≤ breakPoint g meas line := by
  unfold breakPoint
  split
  · exact (Nat.one_le_div_iff hx1).mpr hx2
  · next h => omega

theorem wrap_rest_shorter (g : Geometry) (meas : List Char → ℕ) (c : Char)
    (cs : List Char) (hx1 : 0 < meas ['x']) (hx2 : meas ['x'] ≤ g.avail) :
    (pyLStrip ((c :: cs).drop (breakPoint g meas (c :: cs)))).length <
      (c :: cs).length := by
  have hbp := breakPoint_pos g meas (c :: cs) hx1 hx2
  have h1 : ((c :: cs).drop (breakPoint g meas (c :: cs))).length =
      (c :: cs).length - breakPoint g meas (c :: cs) := List.length_drop ..
  have h2 : (pyLStrip ((c :: cs).drop (breakPoint g meas (c :: cs)))).length ≤
      ((c :: cs).drop (breakPoint g meas (c :: cs))).length :=
    (List.dropWhile_sublist _).length_le
  have h3 : 0 < (c :: cs).length := by simp
  omega

theorem wrapLineFuel_isSome (g : Geometry) (meas : List Char → ℕ)
    (hx1 : 0 < meas ['x']) (hx2 : meas ['x'] ≤ g.avail) :
    ∀ (fuel : ℕ) (line : List Char) (y : ℤ) (page : ℕ), line.length < fuel →
      (wrapLineFuel g meas fuel line y page).isSome = true := by
  intro fuel
  induction fuel with
  | zero =>
    intro line y p h
    exact absurd h (by omega)
  | succ n ih =>
    intro line y p hlen
    cases line with
    | nil => rfl
    | cons c cs =>
      by_cases hf : meas (c :: cs) ≤ g.avail
      · simp [wrapLineFuel, hf]
      · have hrest := wrap_rest_shorter g meas c cs hx1 hx2
        have hcall := ih (pyLStrip ((c :: cs).drop (breakPoint g meas (c :: cs))))
          (pageAdvance g (y - g.lineHeight) p).1
          (pageAdvance g (y - g.lineHeight) p).2
          (by simp only [List.length_cons] at hrest hlen ⊢; omega)
        simp only [wrapLineFuel, if_neg hf]
        rcases hc2 : wrapLineFuel g meas n
            (pyLStrip ((c :: cs).drop (breakPoint g meas (c :: cs))))
            (pageAdvance g (y - g.lineHeight) p).1
            (pageAdvance g (y - g.lineHeight) p).2 with _ | r
        · rw [hc2] at hcall
          simp at hcall
        · simp [hc2]

/-- A measure under which the wrapping loop of the source diverges: every
character is wider than the whole usable width of the demo geometry, so the
fallback character budget is zero and no whitespace is available. -/
def stuckMeasure (l : List Char) : ℕ := 200 * l.length

/-- C10: whenever the usable width is at least the measured width of the
reference character (so the fallback character budget is at least one), the
wrapping loop consumes a strictly positive prefix at every iteration and
terminates for every line, cursor and page; and at a measure violating that
precondition (budget zero) with a whitespace-free line the loop makes no
progress, modelled as the none result. -/
theorem wrap_loop_termination :
    (∀ (g : Geometry) (meas : List Char → ℕ) (line : List Char) (y : ℤ) (page : ℕ),
        0 < meas ['x'] → meas ['x'] ≤ g.avail →
        (wrapLine g meas line y page).isSome = true) ∧
    wrapLine demoGeometry stuckMeasure "ab".data 290 0 = none := by
  constructor
  · intro g meas line y page hx1 hx2
    exact wrapLineFuel_isSome g meas hx1 hx2 _ line y page (by omega)
  · decide

/-! ## C5 and C8, layout invariants -/

/-- A draw instruction inside the usable area: at the left margin, with the
cursor between the bottom and top margins. -/
def InBounds (g : Geometry) (i : DrawInstr) : Prop :=
  i.x = g.margin ∧ (g.margin : ℤ) ≤ i.y ∧ i.y ≤ (g.pageHeight : ℤ) - g.margin

theorem margin_le_top (g : Geometry) :
    (g.margin : ℤ) ≤ (g.pageHeight : ℤ) - g.margin := by
  have := g.hH
  omega

theorem pageAdvance_of_ge (g : Geometry) (y : ℤ) (p : ℕ)
    (h : ¬ y < (g.margin : ℤ)) : pageAdvance g y p = (y, p) := if_neg h

theorem pageAdvance_of_lt (g : Geometry) (y : ℤ) (p : ℕ)
    (h : y < (g.margin : ℤ)) :
    pageAdvance g y p = ((g.pageHeight : ℤ) - g.margin, p + 1) := if_pos h

theorem pageAdvance_bounds (g : Geometry) (y : ℤ) (p : ℕ)
    (hy : y ≤ (g.pageHeight : ℤ) - g.margin) :
    (g.margin : ℤ) ≤ (pageAdvance g y p).1 ∧
      (pageAdvance g y p).1 ≤ (g.pageHeight : ℤ) - g.margin ∧
      p ≤ (pageAdvance g y p).2 := by
  unfold pageAdvance
  split
  · exact ⟨margin_le_top g, le_refl _, Nat.le_succ p⟩
  · next h => exact ⟨by omega, hy, le_refl p⟩

theorem wrapLineFuel_inv (g : Geometry) (meas : List Char → ℕ) :
    ∀ (fuel : ℕ) (line : List Char) (y : ℤ) (p : ℕ) (out : List DrawInstr)
      (y2 : ℤ) (p2 : ℕ),
      (g.margin : ℤ) ≤ y → y ≤ (g.pageHeight : ℤ) - g.margin →
      wrapLineFuel g meas fuel line y p = some (out, y2, p2) →
      (∀ i ∈ out, InBounds g i ∧ p ≤ i.page ∧ i.page ≤ p2) ∧
        (g.margin : ℤ) ≤ y2 ∧ y2 ≤ (g.pageHeight : ℤ) - g.margin ∧ p ≤ p2 ∧
        List.Pairwise (fun a b => a.page ≤ b.page) out := by
  intro fuel
  induction fuel with
  | zero =>
    intro line y p out y2 p2 h1 h2 h
    exact absurd h (by simp [wrapLineFuel])
  | succ n ih =>
    intro line y p out y2 p2 hy1 hy2 h
    cases line with
    | nil =>
      rw [show wrapLineFuel g meas (n + 1) [] y p = some ([], y, p) from rfl] at h
      simp only [Option.some.injEq, Prod.mk.injEq] at h
      obtain ⟨ho, hyy, hpp⟩ := h
      subst ho hyy hpp
      exact ⟨by simp, hy1, hy2, le_refl p, List.Pairwise.nil⟩
    | cons c cs =>
      by_cases hf : meas (c :: cs) ≤ g.avail
      · rw [show wrapLineFuel g meas (n + 1) (c :: cs) y p =
            some ([⟨p, g.margin, y, c :: cs⟩], y, p) from by
          simp [wrapLineFuel, hf]] at h
        simp only [Option.some.injEq, Prod.mk.injEq] at h
        obtain ⟨ho, hyy, hpp⟩ := h
        subst ho hyy hpp
        refine ⟨?_, hy1, hy2, le_refl p, List.pairwise_singleton ..⟩
        intro i hi
        rw [List.mem_singleton] at hi
        subst hi
        exact ⟨⟨rfl, hy1, hy2⟩, le_refl p, le_refl p⟩
      · simp only [wrapLineFuel, if_neg hf] at h
        rcases hc : wrapLineFuel g meas n
            (pyLStrip ((c :: cs).drop (breakPoint g meas (c :: cs))))
            (pageAdvance g (y - g.lineHeight) p).1
            (pageAdvance g (y - g.lineHeight) p).2 with _ | r
        · rw [hc] at h
          exact absurd h (by simp)
        · rw [hc] at h
          obtain ⟨rout, ry, rp⟩ := r
          simp only [Option.some.injEq, Prod.mk.injEq] at h
          obtain ⟨ho, hyy, hpp⟩ := h
          subst ho hyy hpp
          obtain ⟨ha1, ha2, ha3⟩ :=
            pageAdvance_bounds g (y - g.lineHeight) p (by omega)
          obtain ⟨hmem, hb1, hb2, hb3, hpw⟩ := ih _ _ _ rout ry rp ha1 ha2 hc
          refine ⟨?_, hb1, hb2, by omega, ?_⟩
          · intro i hi
            rcases List.mem_cons.mp hi with hi | hi
            · subst hi
              exact ⟨⟨rfl, hy1, hy2⟩, le_refl p, show p ≤ rp by omega⟩
            · obtain ⟨hib, hip1, hip2⟩ := hmem i hi
              exact ⟨hib, by omega, hip2⟩
          · refine List.Pairwise.cons ?_ hpw
            intro b hb
            obtain ⟨_, hbp, _⟩ := hmem b hb
            show p ≤ b.page
            omega

theorem layoutLines_inv (g : Geometry) (meas : List Char → ℕ) :
    ∀ (lines : List (List Char)) (y : ℤ) (p : ℕ) (out : List DrawInstr)
      (y2 : ℤ) (p2 : ℕ),
      y ≤ (g.pageHeight : ℤ) - g.margin →
      layoutLines g meas lines y p = some (out, y2, p2) →
      (∀ i ∈ out, InBounds g i ∧ p ≤ i.page ∧ i.page ≤ p2) ∧
        y2 ≤ (g.pageHeight : ℤ) - g.margin ∧ p ≤ p2 ∧
        List.Pairwise (fun a b => a.page ≤ b.page) out := by
  intro lines
  induction lines with
  | nil =>
    intro y p out y2 p2 hy h
    rw [show layoutLines g meas [] y p = some ([], y, p) from rfl] at h
    simp only [Option.some.injEq, Prod.mk.injEq] at h
    obtain ⟨ho, hyy, hpp⟩ := h
    subst ho hyy hpp
    exact ⟨by simp, hy, le_refl p, List.Pairwise.nil⟩
  | cons line rest ih =>
    intro y p out y2 p2 hy h
    simp only [layoutLines] at h
    obtain ⟨ha1, ha2, ha3⟩ := pageAdvance_bounds g y p hy
    split at h
    · exact absurd h (by simp)
    · next w hw =>
      obtain ⟨wout, wy, wp⟩ := w
      unfold wrapLine at hw
      obtain ⟨hmemw, hw1, hw2, hw3, hpww⟩ :=
        wrapLineFuel_inv g meas _ line _ _ wout wy wp ha1 ha2 hw
      split at h
      · exact absurd h (by simp)
      · next r hr =>
        obtain ⟨rout, ry, rp⟩ := r
        simp only [Option.some.injEq, Prod.mk.injEq] at h
        obtain ⟨ho, hyy, hpp⟩ := h
        subst ho hyy hpp
        obtain ⟨hmemr, hr1, hr2, hpwr⟩ := ih (wy - g.lineHeight) wp rout ry rp
          (by omega) hr
        refine ⟨?_, hr1, by omega, ?_⟩
        · intro i hi
          rcases List.mem_append.mp hi with hi | hi
          · obtain ⟨hib, hip1, hip2⟩ := hmemw i hi
            exact ⟨hib, by omega, by omega⟩
          · obtain ⟨hib, hip1, hip2⟩ := hmemr i hi
            exact ⟨hib, by omega, hip2⟩
        · rw [List.pairwise_append]
          refine ⟨hpww, hpwr, ?_⟩
          intro a haw b hbr
          obtain ⟨_, _, hap⟩ := hmemw a haw
          obtain ⟨_, hbp, _⟩ := hmemr b hbr
          show a.page ≤ b.page
          omega

/-- C5: for every geometry, measure and text, every draw instruction the
layout pass emits sits at the left margin, inside the horizontal band
margin to pageWidth minus margin, and at a cursor between the bottom margin
and pageHeight minus margin. -/
theorem layout_in_bounds (g : Geometry) (meas : List Char → ℕ) (text : String)
    (out : List DrawInstr) (h : layout g meas text = some out) :
    ∀ i ∈ out, i.x = g.margin ∧ g.margin ≤ i.x ∧
      i.x ≤ g.pageWidth - g.margin ∧
      (g.margin : ℤ) ≤ i.y ∧ i.y ≤ (g.pageHeight : ℤ) - g.margin := by
  unfold layout at h
  rcases hL : layoutLines g meas (splitLines text.data)
      ((g.pageHeight : ℤ) - g.margin) 0 with _ | trip
  · rw [hL] at h
    exact absurd h (by simp)
  · rw [hL] at h
    obtain ⟨tout, ty, tp⟩ := trip
    simp only [Option.map_some', Option.some.injEq] at h
    obtain ⟨hinv, _⟩ := layoutLines_inv g meas _ _ _ tout ty tp (le_refl _) hL
    intro i hi
    rw [← h] at hi
    obtain ⟨⟨hx, hy1, hy2⟩, _, _⟩ := hinv i hi
    have hWx : g.margin ≤ g.pageWidth - g.margin := by
      have := g.hW
      omega
    exact ⟨hx, Nat.le_of_eq hx.symm, by omega, hy1, hy2⟩

/-- C5 witness: the bound evaluated at the one instruction the demo layout
of the text "hi" produces. -/
theorem layout_in_bounds_witness :
    (⟨0, 10, 290, ['h', 'i']⟩ : DrawInstr).x = demoGeometry.margin ∧
    demoGeometry.margin ≤ (⟨0, 10, 290, ['h', 'i']⟩ : DrawInstr).x ∧
    (⟨0, 10, 290, ['h', 'i']⟩ : DrawInstr).x ≤
      demoGeometry.pageWidth - demoGeometry.margin ∧
    (demoGeometry.margin : ℤ) ≤ (⟨0, 10, 290, ['h', 'i']⟩ : DrawInstr).y ∧
    (⟨0, 10, 290, ['h', 'i']⟩ : DrawInstr).y ≤
      (demoGeometry.pageHeight : ℤ) - demoGeometry.margin :=
  layout_in_bounds demoGeometry demoMeasure "hi" [⟨0, 10, 290, ['h', 'i']⟩]
    (by decide) ⟨0, 10, 290, ['h', 'i']⟩ (by decide)

/-- C8: across the instruction sequence of a layout run (which begins at
page index 0 by definition of layout) the page indices are monotonically
non-decreasing, and the page-advance step either leaves cursor and page
unchanged (cursor at or above the bottom margin) or resets the cursor to
pageHeight minus margin while incrementing the page index by exactly
one. -/
theorem layout_page_monotone (g : Geometry) (meas : List Char → ℕ)
    (text : String) (out : List DrawInstr) (h : layout g meas text = some out) :
    List.Pairwise (fun a b => a.page ≤ b.page) out ∧
    ∀ (y : ℤ) (p : ℕ),
      (¬ y < (g.margin : ℤ) ∧ pageAdvance g y p = (y, p)) ∨
      (y < (g.margin : ℤ) ∧
        pageAdvance g y p = ((g.pageHeight : ℤ) - g.margin, p + 1)) := by
  constructor
  · unfold layout at h
    rcases hL : layoutLines g meas (splitLines text.data)
        ((g.pageHeight : ℤ) - g.margin) 0 with _ | trip
    · rw [hL] at h
      exact absurd h (by simp)
    · rw [hL] at h
      obtain ⟨tout, ty, tp⟩ := trip
      simp only [Option.map_some', Option.some.injEq] at h
      obtain ⟨_, _, _, hpw⟩ := layoutLines_inv g meas _ _ _ tout ty tp (le_refl _) hL
      rw [← h]
      exact hpw
  · intro y p
    by_cases hc : y < (g.margin : ℤ)
    · exact Or.inr ⟨hc, pageAdvance_of_lt g y p hc⟩
    · exact Or.inl ⟨hc, pageAdvance_of_ge g y p hc⟩

/-- C8 witness: the monotone-pages statement evaluated at the demo layout
of the text "hi". -/
theorem layout_page_monotone_witness :
    List.Pairwise (fun a b => a.page ≤ b.page)
      ([⟨0, 10, 290, ['h', 'i']⟩] : List DrawInstr) ∧
    ∀ (y : ℤ) (p : ℕ),
      (¬ y < (demoGeometry.margin : ℤ) ∧ pageAdvance demoGeometry y p = (y, p)) ∨
      (y < (demoGeometry.margin : ℤ) ∧
        pageAdvance demoGeometry y p =
          ((demoGeometry.pageHeight : ℤ) - demoGeometry.margin, p + 1)) :=
  layout_page_monotone demoGeometry demoMeasure "hi" [⟨0, 10, 290, ['h', 'i']⟩]
    (by decide)

/-! ## C6 and C7, pagination rhythm -/

theorem wrapLine_nil (g : Geometry) (meas : List Char → ℕ) (y : ℤ) (p : ℕ) :
    wrapLine g meas [] y p = some ([], y, p) := rfl

theorem wrapLine_fits (g : Geometry) (meas : List Char → ℕ) (line : List Char)
    (y : ℤ) (p : ℕ) (hne : line ≠ []) (hw : meas line ≤ g.avail) :
    wrapLine g meas line y p = some ([⟨p, g.margin, y, line⟩], y, p) := by
  cases line with
  | nil => exact absurd rfl hne
  | cons c cs =>
    unfold wrapLine
    simp [wrapLineFuel, hw]

theorem layoutLines_cons_fits (g : Geometry) (meas : List Char → ℕ)
    (line : List Char) (rest : List (List Char)) (y : ℤ) (p : ℕ)
    (hne : line ≠ []) (hw : meas line ≤ g.avail) (hy : ¬ y < (g.margin : ℤ)) :
    layoutLines g meas (line :: rest) y p =
      (layoutLines g meas rest (y - g.lineHeight) p).map
        (fun r => (⟨p, g.margin, y, line⟩ :: r.1, r.2)) := by
  simp only [layoutLines, pageAdvance_of_ge g y p hy,
    wrapLine_fits g meas line y p hne hw]
  rcases layoutLines g meas rest (y - g.lineHeight) p with _ | r
  · rfl
  · rfl

theorem layoutLines_cons_fits_adv (g : Geometry) (meas : List Char → ℕ)
    (line : List Char) (rest : List (List Char)) (y : ℤ) (p : ℕ)
    (hne : line ≠ []) (hw : meas line ≤ g.avail) (hy : y < (g.margin : ℤ)) :
    layoutLines g meas (line :: rest) y p =
      (layoutLines g meas rest ((g.pageHeight : ℤ) - g.margin - g.lineHeight)
          (p + 1)).map
        (fun r => (⟨p + 1, g.margin, (g.pageHeight : ℤ) - g.margin, line⟩ :: r.1,
          r.2)) := by
  simp only [layoutLines, pageAdvance_of_lt g y p hy,
    wrapLine_fits g meas line ((g.pageHeight : ℤ) - g.margin) (p + 1) hne hw]
  rcases layoutLines g meas rest ((g.pageHeight : ℤ) - g.margin - g.lineHeight)
      (p + 1) with _ | r
  · rfl
  · rfl

theorem layoutLines_cons_nil (g : Geometry) (meas : List Char → ℕ)
    (rest : List (List Char)) (y : ℤ) (p : ℕ) (hy : ¬ y < (g.margin : ℤ)) :
    layoutLines g meas ([] :: rest) y p =
      layoutLines g meas rest (y - g.lineHeight) p := by
  simp only [layoutLines, pageAdvance_of_ge g y p hy, wrapLine_nil]
  rcases layoutLines g meas rest (y - g.lineHeight) p with _ | r
  · rfl
  · rfl

/-- A page-height-42 geometry with zero margin, allowed by the data-model
invariant (margin below half of each dimension): 42 = 0 + 3 times 14. -/
def zeroMarginGeometry : Geometry :=
  ⟨100, 42, 0, 14, by decide, by decide⟩

/-- The character-count width measure. -/
def countMeasure (l : List Char) : ℕ := l.length

/-- C6 (counterexample): with margin 0 and page height margin plus three
line heights, four short lines all land on page 0 — the cursor reaches
exactly 0 after three lines and the strict page check 0 < 0 fails, so no
fourth-line page advance happens and the claimed two-page split is
wrong. -/
theorem page_overflow_cex :
    (layoutLines zeroMarginGeometry countMeasure [['a'], ['b'], ['c'], ['d']]
        ((zeroMarginGeometry.pageHeight : ℤ) - zeroMarginGeometry.margin) 0).map
      (fun r => r.1.map DrawInstr.page) = some [0, 0, 0, 0] ∧
    ([0, 0, 0, 0] : List ℕ) ≠ [0, 0, 0, 1] := by
  constructor
  · decide
  · decide

/-- C6 (amended): for every geometry whose page height is margin plus three
line heights and whose margin is positive and at most one line height, four
nonempty lines that each fit the usable width produce exactly four draw
instructions spanning two pages: three on page 0 and the fourth on
page 1. -/
theorem page_overflow_two_pages (g : Geometry) (meas : List Char → ℕ)
    (l1 l2 l3 l4 : List Char)
    (hpage : g.pageHeight = g.margin + 3 * g.lineHeight)
    (hm0 : 0 < g.margin) (hmlh : g.margin ≤ g.lineHeight)
    (h1 : l1 ≠ []) (h2 : l2 ≠ []) (h3 : l3 ≠ []) (h4 : l4 ≠ [])
    (w1 : meas l1 ≤ g.avail) (w2 : meas l2 ≤ g.avail)
    (w3 : meas l3 ≤ g.avail) (w4 : meas l4 ≤ g.avail) :
    (layoutLines g meas [l1, l2, l3, l4] ((g.pageHeight : ℤ) - g.margin) 0).map
      (fun r => r.1.map DrawInstr.page) = some [0, 0, 0, 1] := by
  have hlh1 : 1 ≤ g.lineHeight := le_trans hm0 hmlh
  have hy0 : (g.pageHeight : ℤ) - g.margin = 3 * (g.lineHeight : ℤ) := by
    rw [hpage]
    push_cast
    ring
  rw [hy0]
  rw [layoutLines_cons_fits g meas l1 [l2, l3, l4] (3 * (g.lineHeight : ℤ)) 0
    h1 w1 (by omega)]
  rw [layoutLines_cons_fits g meas l2 [l3, l4]
    (3 * (g.lineHeight : ℤ) - g.lineHeight) 0 h2 w2 (by omega)]
  rw [layoutLines_cons_fits g meas l3 [l4]
    (3 * (g.lineHeight : ℤ) - g.lineHeight - g.lineHeight) 0 h3 w3 (by omega)]
  rw [layoutLines_cons_fits_adv g meas l4 []
    (3 * (g.lineHeight : ℤ) - g.lineHeight - g.lineHeight - g.lineHeight) 0
    h4 w4 (by omega)]
  simp [layoutLines]

/-- A geometry realising the amended C6 hypotheses: margin 14, line height
14, page height 56 = 14 + 3 times 14. -/
def overflowGeometry : Geometry :=
  ⟨100, 56, 14, 14, by decide, by decide⟩

/-- C6 witness: the amended statement evaluated at the overflow geometry
with four one-character lines. -/
theorem page_overflow_two_pages_witness :
    (layoutLines overflowGeometry countMeasure [['a'], ['b'], ['c'], ['d']]
        ((overflowGeometry.pageHeight : ℤ) - overflowGeometry.margin) 0).map
      (fun r => r.1.map DrawInstr.page) = some [0, 0, 0, 1] :=
  page_overflow_two_pages overflowGeometry countMeasure ['a'] ['b'] ['c'] ['d']
    (by decide) (by decide) (by decide) (by decide) (by decide) (by decide)
    (by decide) (by decide) (by decide) (by decide) (by decide)

/-- C7: the cursor always drops exactly one further line height when a
line's processing ends, whatever the wrapping loop returned for it — so an
empty line, which emits no instruction, still consumes one line height —
and in particular the text with lines A, blank, B yields exactly two draw
instructions (none for the blank line), with B one extra line height below
A and a final cursor three line heights below the start. -/
theorem blank_line_preserved :
    (∀ (g : Geometry) (meas : List Char → ℕ) (line : List Char) (y : ℤ) (p : ℕ)
        (out : List DrawInstr) (y2 : ℤ) (p2 : ℕ),
        ¬ y < (g.margin : ℤ) →
        wrapLine g meas line y p = some (out, y2, p2) →
        layoutLines g meas [line] y p = some (out, y2 - g.lineHeight, p2)) ∧
    (∀ (g : Geometry) (meas : List Char → ℕ) (y : ℤ) (p : ℕ),
        meas ['A'] ≤ g.avail → meas ['B'] ≤ g.avail →
        ¬ y < (g.margin : ℤ) → ¬ y - g.lineHeight < (g.margin : ℤ) →
        ¬ y - 2 * g.lineHeight < (g.margin : ℤ) →
        layoutLines g meas (splitLines "A\n\nB".data) y p =
          some ([⟨p, g.margin, y, ['A']⟩,
              ⟨p, g.margin, y - 2 * g.lineHeight, ['B']⟩],
            y - 3 * g.lineHeight, p)) := by
  constructor
  · intro g meas line y p out y2 p2 hy hw
    simp only [layoutLines, pageAdvance_of_ge g y p hy, hw]
    simp [layoutLines]
  · intro g meas y p hA hB hy1 hy2 hy3
    have hsplit : splitLines "A\n\nB".data = [['A'], [], ['B']] := by decide
    rw [hsplit]
    rw [layoutLines_cons_fits g meas ['A'] [[], ['B']] y p (by simp) hA hy1]
    rw [layoutLines_cons_nil g meas [['B']] (y - g.lineHeight) p hy2]
    have e1 : y - (g.lineHeight : ℤ) - g.lineHeight = y - 2 * g.lineHeight := by
      ring
    rw [e1]
    rw [layoutLines_cons_fits g meas ['B'] [] (y - 2 * g.lineHeight) p
      (by simp) hB hy3]
    have e2 : y - 2 * (g.lineHeight : ℤ) - g.lineHeight = y - 3 * g.lineHeight := by
      ring
    rw [e2]
    simp [layoutLines]

end Invoice
